import Mathlib

set_option maxRecDepth 4000

/-!
Verification development for the overboard repository: a shallow embedding of
the append-only log writer (`overboard_logger/logger.py` and the GUI-side
`overboard/logger.py`), the incremental CSV tailer
(`overboard/experiments.py`), the experiments crawler and the visualization
loader (`overboard/visualizations.py`), together with theorems settling the
stated claims about them.
-/

namespace PkgLogger

/-!
Model of `src/logger/overboard_logger/logger.py` (class `Logger`).

Conventions of the embedding:
* Python dicts become association lists preserving insertion order
  (new keys are appended at the end, existing keys are updated in place),
  matching CPython dict iteration order.
* Statistic values are modelled as rationals (the source validates
  `isinstance(value, Number)`; that check is vacuously true in the typed
  model).
* The stats.csv file is kept structurally: a header flag, a list of rows
  (each row is the leading timestamp field plus one optional value per stat
  name, where `none` encodes the NaN sentinel written for omitted columns),
  and a flag for the trailing completion-marker line break.
* Timestamps returned by `get_timestamp()` enter the model as explicit
  string arguments of `append`.
-/

/-- A value stored in the meta.json object. -/
inductive MetaVal where
  | boolV (b : Bool)
  | strV (s : String)
  | numV (q : ℚ)
deriving DecidableEq

/-- One data row of stats.csv: the timestamp field written first, then one
field per stat name; `none` is the NaN sentinel for a column omitted in that
`append` call. -/
structure Row where
  time : String
  vals : List (Option ℚ)
deriving DecidableEq

/-- State of one `Logger` session (non-resume mode). -/
structure LogState where
  statNames : Option (List String)
  wroteHeader : Bool
  csvRows : List Row
  marker : Bool
  fileClosed : Bool
  avgAccum : List (String × ℚ)
  avgCount : List (String × ℕ)
  metaFile : List (String × MetaVal)
deriving DecidableEq

/-- `isinstance(name, str) and ',' not in name` (the str check is vacuous in
the typed model). -/
def nameOk (n : String) : Bool := !(n.data.contains ',')

/-- Fresh session right after `Logger.__init__` (non-resume): meta.json has
been written with the given contents, `self.stat_names` is `None` (the
constructor validates its `stat_names` argument but, outside resume mode,
never assigns it: the attribute is set on the first `append`), the
averaging accumulators are empty, and stats.csv is open and empty. -/
def init0 (meta : List (String × MetaVal)) : LogState :=
  ⟨none, false, [], false, false, [], [], meta⟩

/-- Update one entry of an association list in place (used for existing dict
keys; keys are unique by construction, as in a Python dict). -/
def setEntry {α : Type} (l : List (String × α)) (k : String) (v : α) :
    List (String × α) :=
  l.map fun p => if p.1 = k then (k, v) else p

/-- One iteration of the loop in `Logger.update_average`: initialize
`avg_accum[name] = value, avg_count[name] = 1` for a new name, else add to
the sum and bump the count.  (The count update reads the current count; the
`getD 0` default is never exercised because the accumulator and the counter
always hold the same keys, proved below.) -/
def updAvgStep (ac : List (String × ℚ) × List (String × ℕ)) (p : String × ℚ) :
    List (String × ℚ) × List (String × ℕ) :=
  match ac.1.lookup p.1 with
  | none => (ac.1 ++ [p], ac.2 ++ [(p.1, 1)])
  | some a =>
      (setEntry ac.1 p.1 (a + p.2),
       setEntry ac.2 p.1 (((ac.2.lookup p.1).getD 0) + 1))

/-- `Logger.update_average(points)`: iterate over the items of `points`. -/
def updateAverage (s : LogState) (points : List (String × ℚ)) : LogState :=
  let ac := points.foldl updAvgStep (s.avgAccum, s.avgCount)
  { s with avgAccum := ac.1, avgCount := ac.2 }

/-- The dict comprehension of `Logger.average()` over explicit lists: one
mean per accumulator entry, in insertion order; `none` models the
`KeyError` raised when a name is missing from `avg_count` (an unreachable
case, proved below). -/
def avgOfLists (C : List (String × ℕ)) : List (String × ℚ) → Option (List (String × ℚ))
  | [] => some []
  | p :: t =>
      match C.lookup p.1, avgOfLists C t with
      | some c, some rest => some ((p.1, p.2 / (c : ℚ)) :: rest)
      | _, _ => none

/-- `Logger.average()`: per-name mean of the accumulated values. -/
def averageQ (s : LogState) : Option (List (String × ℚ)) :=
  avgOfLists s.avgCount s.avgAccum

/-- `Logger.reset_average()`. -/
def resetAverage (s : LogState) : LogState :=
  { s with avgAccum := [], avgCount := [] }

/-- Errors raised by `Logger.append`. -/
inductive LogErr where
  | keyErr
  | valueErr
deriving DecidableEq

/-- Writing phase of `Logger.append` after validation has passed: write the
header if not written yet, then the timestamp field and one field per stat
name (`NaN` for names absent from `points`), then the line break, and flush. -/
def writeRow (s : LogState) (ns : List String) (pts : List (String × ℚ))
    (ts : String) : LogState × Option LogErr :=
  let s := if s.wroteHeader then s else { s with wroteHeader := true }
  ({ s with csvRows := s.csvRows ++ [⟨ts, ns.map fun n => pts.lookup n⟩] }, none)

/-- `Logger.append(points)`; `points? = none` is the no-argument call that
consumes the running average and resets the accumulator.  The returned state
reflects all mutations performed before a raise, as in the source (in
particular `self.stat_names` is assigned before its contents are
validated). -/
def appendOp (s : LogState) (points? : Option (List (String × ℚ)))
    (ts : String) : LogState × Option LogErr :=
  let resolved : Option (LogState × List (String × ℚ)) :=
    match points? with
    | none =>
        match averageQ s with
        | none => none
        | some pts => some (resetAverage s, pts)
    | some pts => some (s, pts)
  match resolved with
  | none => (s, some .keyErr)
  | some (s, pts) =>
    match s.statNames with
    | none =>
        let ns := pts.map Prod.fst
        let s := { s with statNames := some ns }
        if !(ns.all nameOk) then (s, some .valueErr)
        else writeRow s ns pts ts
    | some ns =>
        if pts.any fun p => !(ns.contains p.1) then (s, some .valueErr)
        else writeRow s ns pts ts

/-- `Logger._finish_write`: if the stream is not closed yet, write the
completion-marker line break and close it.  Called from `__exit__` and
`__del__`; nothing else happens on close (in particular meta.json is not
touched). -/
def finishWrite (s : LogState) : LogState :=
  if s.fileClosed then s else { s with marker := true, fileClosed := true }

/-- Rendering of one stats.csv field: the value as printed by `str`, or the
`NaN` sentinel for an omitted column.  The number-to-text conversion is a
parameter `r` of the serialization (Python `str` on numbers; it never
produces commas or line breaks, which enters the theorems as a
hypothesis). -/
def renderVal (r : ℚ → String) : Option ℚ → String
  | some v => r v
  | none => "NaN"

/-- The text of one data row as written to stats.csv: timestamp, then a
comma before each stat field, then the line break. -/
def renderLine (r : ℚ → String) (row : Row) : String :=
  (row.vals.foldl (fun acc v => acc ++ "," ++ renderVal r v) row.time) ++ "\n"

/-- Number of comma characters in a string. -/
def commaCount (s : String) : ℕ := s.data.count ','

/-- One call into the averaging/appending interface of a session. -/
inductive Op where
  | upd (points : List (String × ℚ))
  | app (points : Option (List (String × ℚ))) (ts : String)
  | reset
deriving DecidableEq

/-- Effect of one call on the session state (exceptions propagate to the
caller; the state keeps the mutations made before the raise). -/
def applyOp (s : LogState) : Op → LogState
  | .upd pts => updateAverage s pts
  | .app pts ts => (appendOp s pts ts).1
  | .reset => resetAverage s

/-- Run a sequence of calls. -/
def runOps (s : LogState) (ops : List Op) : LogState := ops.foldl applyOp s

/-- The timestamps of the `append` calls of a sequence, in call order. -/
def appTs (ops : List Op) : List String :=
  ops.filterMap fun op => match op with | .app _ ts => some ts | _ => none

/-- C7: `update_average({"loss": 1.0}); update_average({"loss": 3.0});
append()` writes one row whose loss field is the mean 2.0, and a subsequent
`average()` returns the empty mapping because `append` reset the
accumulator. -/
theorem update_average_append_mean :
    (runOps (init0 []) [Op.upd [("loss", 1)], Op.upd [("loss", 3)],
        Op.app none "t0"]).csvRows = [⟨"t0", [some 2]⟩] ∧
    averageQ (runOps (init0 []) [Op.upd [("loss", 1)], Op.upd [("loss", 3)],
        Op.app none "t0"]) = some [] := by
  constructor <;>
    simp [runOps, applyOp, appendOp, updateAverage, updAvgStep, averageQ,
      avgOfLists, resetAverage, writeRow, init0, nameOk, List.lookup,
      setEntry] <;>
    norm_num

/-- C3 counterexample: closing a session (`_finish_write`, reached from
`__exit__` and `__del__`) writes the completion-marker line break but does
NOT rewrite meta.json: the metadata contents are left exactly as written by
the constructor, and no completion flag is ever present there. -/
theorem finishWrite_no_meta_rewrite :
    ((finishWrite ((appendOp (init0 [("lr", .numV 1)])
        (some [("loss", 1)]) "t0").1)).metaFile.lookup "finished"
      ≠ some (MetaVal.boolV true)) ∧
    (finishWrite ((appendOp (init0 [("lr", .numV 1)])
        (some [("loss", 1)]) "t0").1)).marker = true ∧
    (finishWrite ((appendOp (init0 [("lr", .numV 1)])
        (some [("loss", 1)]) "t0").1)).metaFile = [("lr", .numV 1)] := by
  refine ⟨?_, by decide, by decide⟩
  decide

/-- C3 (amended): on close, `_finish_write` writes the completion-marker
line break at the end of stats.csv and closes the stream if it is not
closed already; it is idempotent, and it leaves the metadata file entirely
unchanged (no completion flag is written; run completion is signalled only
by the marker line). -/
theorem finishWrite_marker_only (s : LogState) (h : s.fileClosed = false) :
    finishWrite s = { s with marker := true, fileClosed := true } ∧
    (finishWrite s).metaFile = s.metaFile ∧
    finishWrite (finishWrite s) = finishWrite s := by
  refine ⟨by simp [finishWrite, h], by simp [finishWrite, h], ?_⟩
  simp [finishWrite, h]

/-- Keys of an association list. -/
def keysOf {α : Type} (l : List (String × α)) : List String := l.map Prod.fst

theorem keysOf_setEntry {α : Type} (l : List (String × α)) (k : String)
    (v : α) : keysOf (setEntry l k v) = keysOf l := by
  induction l with
  | nil => rfl
  | cons p t ih =>
      simp only [keysOf, setEntry, List.map_cons] at ih ⊢
      by_cases h : p.1 = k <;> simp [h, ih]

theorem lookup_mem {α : Type} :
    ∀ (l : List (String × α)) (k : String) (v : α),
      l.lookup k = some v → (k, v) ∈ l
  | [], _, _, h => by simp at h
  | (k', b) :: t, k, v, h => by
      rw [List.lookup_cons] at h
      cases hbeq : k == k' with
      | true =>
          rw [hbeq] at h
          obtain rfl : b = v := by simpa using h
          obtain rfl : k = k' := eq_of_beq hbeq
          exact List.mem_cons_self _ _
      | false =>
          rw [hbeq] at h
          exact List.mem_cons_of_mem _ (lookup_mem t k v h)

theorem lookup_isSome_of_mem_keys {α : Type} (l : List (String × α))
    (k : String) (h : k ∈ keysOf l) : ∃ v, l.lookup k = some v := by
  induction l with
  | nil => simp [keysOf] at h
  | cons p t ih =>
      by_cases hk : k = p.1
      · exact ⟨p.2, by simp [List.lookup, hk]⟩
      · simp only [keysOf, List.map_cons, List.mem_cons] at h
        rcases h with h | h
        · exact absurd h hk
        · obtain ⟨v, hv⟩ := ih h
          have hbeq : (k == p.1) = false := by simpa using hk
          exact ⟨v, by cases p; rw [List.lookup_cons, hbeq]; exact hv⟩

/-- Invariant tying the two averaging dicts together: they hold exactly the
same keys in the same order, and every accumulated count is at least 1. -/
def ACInv (A : List (String × ℚ)) (C : List (String × ℕ)) : Prop :=
  keysOf A = keysOf C ∧ ∀ p ∈ C, 1 ≤ p.2

theorem ACInv_updAvgStep {A : List (String × ℚ)} {C : List (String × ℕ)}
    (h : ACInv A C) (pt : String × ℚ) :
    ACInv (updAvgStep (A, C) pt).1 (updAvgStep (A, C) pt).2 := by
  obtain ⟨hkeys, hpos⟩ := h
  unfold updAvgStep
  cases hl : A.lookup pt.1 with
  | none =>
      refine ⟨?_, ?_⟩
      · simp only [keysOf, List.map_append] at hkeys ⊢
        simp [hkeys]
      · intro p hp
        rcases List.mem_append.mp hp with hp | hp
        · exact hpos p hp
        · simp at hp; simp [hp]
  | some a =>
      refine ⟨?_, ?_⟩
      · rw [keysOf_setEntry, keysOf_setEntry]; exact hkeys
      · intro p hp
        simp only [setEntry] at hp
        rcases List.mem_map.mp hp with ⟨q, hq, hfq⟩
        by_cases hq1 : q.1 = pt.1
        · rw [if_pos hq1] at hfq
          rw [← hfq]; simp
        · rw [if_neg hq1] at hfq
          rw [← hfq]; exact hpos q hq

theorem ACInv_foldl {A : List (String × ℚ)} {C : List (String × ℕ)}
    (h : ACInv A C) (pts : List (String × ℚ)) :
    ACInv (pts.foldl updAvgStep (A, C)).1 (pts.foldl updAvgStep (A, C)).2 := by
  induction pts generalizing A C with
  | nil => exact h
  | cons pt t ih =>
      rw [List.foldl_cons]
      have := ACInv_updAvgStep h pt
      rcases hstep : updAvgStep (A, C) pt with ⟨A1, C1⟩
      rw [hstep] at this
      exact ih this

theorem avgFields_appendOp (s : LogState) (p : Option (List (String × ℚ)))
    (ts : String) :
    ((appendOp s p ts).1.avgAccum = s.avgAccum ∧
       (appendOp s p ts).1.avgCount = s.avgCount) ∨
    ((appendOp s p ts).1.avgAccum = [] ∧ (appendOp s p ts).1.avgCount = []) := by
  unfold appendOp
  cases p with
  | none =>
      cases havg : averageQ s with
      | none => simp
      | some pts =>
          cases hsn : (resetAverage s).statNames with
          | none =>
              simp only [hsn]
              split
              · right; simp [resetAverage]
              · right; simp [writeRow, resetAverage]; split <;> simp
          | some ns =>
              simp only [hsn]
              split
              · right; simp [resetAverage]
              · right; simp [writeRow, resetAverage]; split <;> simp
  | some pts =>
      cases hsn : s.statNames with
      | none =>
          simp only [hsn]
          split
          · left; simp
          · left; simp [writeRow]; split <;> simp
      | some ns =>
          simp only [hsn]
          split
          · left; simp
          · left; simp [writeRow]; split <;> simp

theorem ACInv_applyOp {s : LogState} (h : ACInv s.avgAccum s.avgCount)
    (op : Op) : ACInv (applyOp s op).avgAccum (applyOp s op).avgCount := by
  cases op with
  | upd pts =>
      have := ACInv_foldl h pts
      simpa [applyOp, updateAverage] using this
  | app p ts =>
      rcases avgFields_appendOp s p ts with ⟨h1, h2⟩ | ⟨h1, h2⟩ <;>
        simp only [applyOp] <;> rw [h1, h2]
      · exact h
      · exact ⟨rfl, by simp⟩
  | reset =>
      refine ⟨rfl, ?_⟩
      simp [applyOp, resetAverage]

theorem ACInv_runOps (meta : List (String × MetaVal)) (ops : List Op) :
    ACInv (runOps (init0 meta) ops).avgAccum (runOps (init0 meta) ops).avgCount := by
  suffices h : ∀ s, ACInv s.avgAccum s.avgCount →
      ACInv (runOps s ops).avgAccum (runOps s ops).avgCount by
    exact h (init0 meta) ⟨rfl, by simp [init0]⟩
  induction ops with
  | nil => intro s h; exact h
  | cons op t ih =>
      intro s h
      rw [runOps, List.foldl_cons]
      exact ih _ (ACInv_applyOp h op)

theorem avgOfLists_isSome (C : List (String × ℕ)) :
    ∀ (A : List (String × ℚ)), (∀ p ∈ A, p.1 ∈ keysOf C) →
      (avgOfLists C A).isSome = true
  | [], _ => by simp [avgOfLists]
  | p :: t, h => by
      obtain ⟨v, hv⟩ := lookup_isSome_of_mem_keys C p.1 (h p (by simp))
      have ih := avgOfLists_isSome C t fun q hq => h q (List.mem_cons_of_mem _ hq)
      rcases hmt : avgOfLists C t with _ | l
      · rw [hmt] at ih; simp at ih
      · rw [avgOfLists, hv, hmt]; rfl

theorem averageQ_isSome_of_inv {s : LogState}
    (h : ACInv s.avgAccum s.avgCount) : (averageQ s).isSome = true := by
  obtain ⟨hkeys, _⟩ := h
  exact avgOfLists_isSome s.avgCount s.avgAccum fun p hp => by
    rw [← hkeys]; exact List.mem_map.mpr ⟨p, hp, rfl⟩

/-- C10: in every state reachable by any sequence of `update_average`,
`append` and `reset_average` calls, every name in the averaging accumulator
has a recorded count of at least 1, so the per-name division in `average()`
never divides by zero (the computation always succeeds); moreover
`average()` on a fresh or just-reset accumulator is the empty mapping. -/
theorem avg_count_positive (ops : List Op) (meta : List (String × MetaVal)) :
    (∀ p ∈ (runOps (init0 meta) ops).avgAccum,
        ∃ c, (runOps (init0 meta) ops).avgCount.lookup p.1 = some c ∧ 1 ≤ c) ∧
    (averageQ (runOps (init0 meta) ops)).isSome = true ∧
    averageQ (init0 meta) = some [] ∧
    averageQ (resetAverage (runOps (init0 meta) ops)) = some [] := by
  have hinv := ACInv_runOps meta ops
  refine ⟨?_, averageQ_isSome_of_inv hinv, rfl, rfl⟩
  intro p hp
  obtain ⟨hkeys, hpos⟩ := hinv
  obtain ⟨c, hc⟩ := lookup_isSome_of_mem_keys _ p.1
    (by rw [← hkeys]; exact List.mem_map.mpr ⟨p, hp, rfl⟩)
  exact ⟨c, hc, hpos _ (lookup_mem _ _ _ hc)⟩

/-- Witness for `avg_count_positive` at a concrete call sequence. -/
theorem avg_count_positive_witness :
    ∃ c, (runOps (init0 []) [Op.upd [("loss", 1)]]).avgCount.lookup "loss"
        = some c ∧ 1 ≤ c :=
  (avg_count_positive [Op.upd [("loss", 1)]] []).1 ("loss", 1)
    (by simp [runOps, applyOp, updateAverage, updAvgStep, init0])

theorem csvRows_updateAverage (s : LogState) (pts : List (String × ℚ)) :
    (updateAverage s pts).csvRows = s.csvRows ∧
    (updateAverage s pts).statNames = s.statNames := by
  simp [updateAverage]

theorem writeRow_csvRows (s : LogState) (ns : List String)
    (pts : List (String × ℚ)) (ts : String) :
    (writeRow s ns pts ts).1.csvRows
      = s.csvRows ++ [⟨ts, ns.map fun n => pts.lookup n⟩] := by
  rw [writeRow]; split <;> simp

theorem writeRow_statNames (s : LogState) (ns : List String)
    (pts : List (String × ℚ)) (ts : String) :
    (writeRow s ns pts ts).1.statNames = s.statNames := by
  rw [writeRow]; split <;> simp

theorem csvRows_appendOp (s : LogState) (p : Option (List (String × ℚ)))
    (ts : String) :
    (appendOp s p ts).1.csvRows = s.csvRows ∨
    ∃ vals, (appendOp s p ts).1.csvRows = s.csvRows ++ [⟨ts, vals⟩] := by
  unfold appendOp
  cases p with
  | none =>
      cases averageQ s with
      | none => left; rfl
      | some pts =>
          cases hsn : (resetAverage s).statNames with
          | none =>
              simp only [hsn]
              split
              · left; simp [resetAverage]
              · right
                refine ⟨(pts.map Prod.fst).map fun n => pts.lookup n, ?_⟩
                rw [writeRow_csvRows]
                simp [resetAverage]
          | some ns =>
              simp only [hsn]
              split
              · left; simp [resetAverage]
              · right
                refine ⟨ns.map fun n => pts.lookup n, ?_⟩
                rw [writeRow_csvRows]
                simp [resetAverage]
  | some pts =>
      cases hsn : s.statNames with
      | none =>
          simp only [hsn]
          split
          · left; rfl
          · right
            refine ⟨(pts.map Prod.fst).map fun n => pts.lookup n, ?_⟩
            rw [writeRow_csvRows]
      | some ns =>
          simp only [hsn]
          split
          · left; rfl
          · right
            refine ⟨ns.map fun n => pts.lookup n, ?_⟩
            rw [writeRow_csvRows]

theorem statNames_appendOp (s : LogState) (p : Option (List (String × ℚ)))
    (ts : String) (ns : List String) (h : s.statNames = some ns) :
    (appendOp s p ts).1.statNames = some ns := by
  unfold appendOp
  cases p with
  | none =>
      cases averageQ s with
      | none => exact h
      | some pts =>
          have hsn : (resetAverage s).statNames = some ns := by
            simpa [resetAverage] using h
          simp only [hsn]
          split
          · simpa [resetAverage] using h
          · rw [writeRow_statNames]; exact hsn
  | some pts =>
      simp only [h]
      split
      · exact h
      · rw [writeRow_statNames]; exact h

theorem statNames_applyOp (s : LogState) (op : Op) (ns : List String)
    (h : s.statNames = some ns) : (applyOp s op).statNames = some ns := by
  cases op with
  | upd pts => rw [applyOp, (csvRows_updateAverage s pts).2]; exact h
  | app p ts => exact statNames_appendOp s p ts ns h
  | reset => simpa [applyOp, resetAverage] using h

/-- Every row on file has one value slot per stat name of the session. -/
def RowsOk (s : LogState) : Prop :=
  ∀ row ∈ s.csvRows, ∃ ns, s.statNames = some ns ∧ row.vals.length = ns.length

theorem RowsOk_writeRow (s : LogState) (ns : List String)
    (pts : List (String × ℚ)) (ts : String) (h : RowsOk s)
    (hsn : s.statNames = some ns) : RowsOk (writeRow s ns pts ts).1 := by
  intro row hrow
  have hrows := writeRow_csvRows s ns pts ts
  have hsn2 : (writeRow s ns pts ts).1.statNames = some ns := by
    rw [writeRow_statNames]; exact hsn
  rw [hrows] at hrow
  rcases List.mem_append.mp hrow with hrow | hrow
  · obtain ⟨ns2, hns2, hlen⟩ := h row hrow
    rw [hsn] at hns2
    have he : ns = ns2 := by injection hns2
    exact ⟨ns, hsn2, by rw [hlen, ← he]⟩
  · simp only [List.mem_singleton] at hrow
    subst hrow
    exact ⟨ns, hsn2, by simp⟩

theorem RowsOk_appendOp (s : LogState) (p : Option (List (String × ℚ)))
    (ts : String) (h : RowsOk s) : RowsOk (appendOp s p ts).1 := by
  have hreset : RowsOk (resetAverage s) := by
    intro row hrow
    obtain ⟨ns, hns, hlen⟩ := h row hrow
    exact ⟨ns, by simpa [resetAverage] using hns, hlen⟩
  unfold appendOp
  cases p with
  | none =>
      cases averageQ s with
      | none => exact h
      | some pts =>
          cases hsn : (resetAverage s).statNames with
          | none =>
              simp only [hsn]
              split
              · intro row hrow
                obtain ⟨ns, hns, _⟩ := hreset row hrow
                rw [hsn] at hns; cases hns
              · refine RowsOk_writeRow _ _ _ _ ?_ rfl
                intro row hrow
                obtain ⟨ns, hns, _⟩ := hreset row hrow
                rw [hsn] at hns; cases hns
          | some ns =>
              simp only [hsn]
              split
              · intro row hrow
                obtain ⟨ns2, hns2, hlen⟩ := hreset row hrow
                exact ⟨ns2, hns2, hlen⟩
              · exact RowsOk_writeRow _ _ _ _ hreset hsn
  | some pts =>
      cases hsn : s.statNames with
      | none =>
          simp only [hsn]
          split
          · intro row hrow
            obtain ⟨ns, hns, _⟩ := h row hrow
            rw [hsn] at hns; cases hns
          · refine RowsOk_writeRow _ _ _ _ ?_ rfl
            intro row hrow
            obtain ⟨ns, hns, _⟩ := h row hrow
            rw [hsn] at hns; cases hns
      | some ns =>
          simp only [hsn]
          split
          · exact h
          · exact RowsOk_writeRow _ _ _ _ h hsn

theorem RowsOk_applyOp (s : LogState) (op : Op) (h : RowsOk s) :
    RowsOk (applyOp s op) := by
  cases op with
  | upd pts =>
      intro row hrow
      rw [applyOp, (csvRows_updateAverage s pts).1] at hrow
      obtain ⟨ns, hns, hlen⟩ := h row hrow
      exact ⟨ns, by rw [applyOp, (csvRows_updateAverage s pts).2]; exact hns, hlen⟩
  | app p ts => exact RowsOk_appendOp s p ts h
  | reset =>
      intro row hrow
      simp only [applyOp, resetAverage] at hrow
      obtain ⟨ns, hns, hlen⟩ := h row hrow
      exact ⟨ns, by simpa [applyOp, resetAverage] using hns, hlen⟩

theorem RowsOk_runOps (s : LogState) (ops : List Op) (h : RowsOk s) :
    RowsOk (runOps s ops) := by
  induction ops generalizing s with
  | nil => exact h
  | cons op t ih => exact ih _ (RowsOk_applyOp s op h)

theorem rowTimes_sublist (ops : List Op) :
    ∀ s : LogState, List.Sublist ((runOps s ops).csvRows.map Row.time)
      (s.csvRows.map Row.time ++ appTs ops) := by
  induction ops with
  | nil => intro s; simp [runOps]
  | cons op t ih =>
      intro s
      have hrun : runOps s (op :: t) = runOps (applyOp s op) t := by
        simp [runOps]
      rw [hrun]
      cases op with
      | upd pts =>
          have := ih (applyOp s (.upd pts))
          rw [applyOp, (csvRows_updateAverage s pts).1] at this
          simpa [appTs] using this
      | reset =>
          have := ih (applyOp s .reset)
          rw [applyOp] at this
          simp only [resetAverage] at this
          simpa [appTs] using this
      | app p ts =>
          have happ : appTs (Op.app p ts :: t) = ts :: appTs t := by
            simp [appTs]
          rw [happ]
          rcases csvRows_appendOp s p ts with hrows | ⟨vals, hrows⟩
          · have := ih (applyOp s (.app p ts))
            rw [applyOp, hrows] at this
            refine this.trans ?_
            exact List.Sublist.append_left (List.sublist_cons_self ts _) _
          · have := ih (applyOp s (.app p ts))
            rw [applyOp, hrows] at this
            simpa using this

theorem commaCount_append (a b : String) :
    commaCount (a ++ b) = commaCount a + commaCount b := by
  simp [commaCount, String.data_append]

theorem commaCount_renderVal (r : ℚ → String)
    (hr : ∀ q, commaCount (r q) = 0) (v : Option ℚ) :
    commaCount (renderVal r v) = 0 := by
  cases v with
  | none => rfl
  | some q => exact hr q

theorem commaCount_fold (r : ℚ → String) (hr : ∀ q, commaCount (r q) = 0) :
    ∀ (vals : List (Option ℚ)) (acc : String),
      commaCount (vals.foldl (fun acc v => acc ++ "," ++ renderVal r v) acc)
        = commaCount acc + vals.length
  | [], acc => by simp
  | v :: t, acc => by
      rw [List.foldl_cons, commaCount_fold r hr t]
      rw [commaCount_append, commaCount_append, commaCount_renderVal r hr]
      simp [commaCount]
      omega

theorem commaCount_renderLine (r : ℚ → String)
    (hr : ∀ q, commaCount (r q) = 0) (row : Row)
    (hts : commaCount row.time = 0) :
    commaCount (renderLine r row) = row.vals.length := by
  rw [renderLine, commaCount_append, commaCount_fold r hr, hts]
  simp [commaCount]

/-- C4: over any call sequence in one session, every data row written to
stats.csv has exactly `1 + len(stat_names)` comma-separated fields — one
value slot per stat name, plus the leading timestamp, with no stray commas
in the rendered line — the rows carry the NaN sentinel (`none`, rendered
`"NaN"`) exactly for the known columns omitted in that `append` call, and
the leading fields of successive rows are strictly increasing whenever the
timestamps supplied by the clock are. -/
theorem append_rows_wellformed (ops : List Op) (meta : List (String × MetaVal))
    (r : ℚ → String) (hr : ∀ q, commaCount (r q) = 0)
    (hts : ∀ ts ∈ appTs ops, commaCount ts = 0)
    (hsorted : (appTs ops).Pairwise (· < ·)) :
    (∀ row ∈ (runOps (init0 meta) ops).csvRows,
      ∃ ns, (runOps (init0 meta) ops).statNames = some ns ∧
        row.vals.length = ns.length ∧
        commaCount (renderLine r row) + 1 = 1 + ns.length) ∧
    ((runOps (init0 meta) ops).csvRows.map Row.time).Pairwise (· < ·) ∧
    (∀ (s : LogState) (pts : List (String × ℚ)) (ts : String)
        (ns : List String), s.statNames = some ns →
      (appendOp s (some pts) ts).2 = none →
      (appendOp s (some pts) ts).1.csvRows
        = s.csvRows ++ [⟨ts, ns.map fun n => pts.lookup n⟩]) ∧
    renderVal r none = "NaN" := by
  have hsub := rowTimes_sublist ops (init0 meta)
  simp only [init0, List.map_nil, List.nil_append] at hsub
  refine ⟨?_, hsorted.sublist hsub, ?_, rfl⟩
  · intro row hrow
    obtain ⟨ns, hns, hlen⟩ :=
      RowsOk_runOps (init0 meta) ops (by intro row h; simp [init0] at h) row hrow
    refine ⟨ns, hns, hlen, ?_⟩
    have htime : commaCount row.time = 0 :=
      hts row.time (hsub.subset (List.mem_map.mpr ⟨row, hrow, rfl⟩))
    rw [commaCount_renderLine r hr row htime, hlen]
    omega
  · intro s pts ts ns hsn hok
    unfold appendOp at hok ⊢
    simp only [hsn] at hok ⊢
    by_cases hany : (pts.any fun p => !ns.contains p.1) = true
    · rw [if_pos hany] at hok; simp at hok
    · rw [if_neg hany]
      exact writeRow_csvRows s ns pts ts

/-- Witness for `append_rows_wellformed` at a concrete call sequence with a
concrete value renderer and strictly increasing timestamps. -/
theorem append_rows_wellformed_witness :
    ((runOps (init0 [])
        [Op.app (some [("loss", 1)]) "t1", Op.app none "t2"]).csvRows.map
      Row.time).Pairwise (· < ·) :=
  (append_rows_wellformed
    [Op.app (some [("loss", 1)]) "t1", Op.app none "t2"] [] (fun _ => "0")
    (fun _ => rfl)
    (by intro ts h; simp [appTs] at h; rcases h with rfl | rfl <;> decide)
    (by
      simp only [appTs, List.filterMap]
      refine List.Pairwise.cons ?_ (List.pairwise_singleton _ _)
      intro b hb
      simp only [List.mem_singleton] at hb
      subst hb
      rw [String.lt_iff_toList_lt]
      decide)).2.1

/-- Witness for `finishWrite_marker_only` at a concrete open session. -/
theorem finishWrite_marker_only_witness :
    finishWrite (init0 []) =
      { init0 [] with marker := true, fileClosed := true } ∧
    (finishWrite (init0 [])).metaFile = (init0 []).metaFile ∧
    finishWrite (finishWrite (init0 [])) = finishWrite (init0 []) :=
  finishWrite_marker_only (init0 []) rfl

/-!
Model of `Logger.visualize` from `src/logger/overboard_logger/logger.py`.
The function argument is either the literal string `tensor` (built-in) or a
user function; for the latter the model records the identity of the function
object, the source file reported by `inspect.getsourcefile` (`none` when
unavailable), and whether it is a lambda or a bound method.
-/

/-- Identity of the `func` argument of `visualize`. -/
inductive Func where
  | tensorStr
  | user (id : ℕ) (source : Option String) (isLambda : Bool) (isMethod : Bool)
deriving DecidableEq

/-- Entry of `self.vis_functions`: the registered function and the frozen
source file recorded on first use of the name. -/
structure VisInfo where
  func : Func
  source : String
deriving DecidableEq

/-- Contents of one pickled `.pth` payload file: `{func, source, args,
kwargs}`, with the arguments kept as an opaque token. -/
structure Payload where
  funcName : Func
  source : String
  argsTok : ℕ
deriving DecidableEq

/-- Writer-side state touched by `visualize`: the in-memory registry and
size table, plus the on-disk `visualizations` directory with its frozen
`.py` copies and `.pth` payload files. -/
structure VisState where
  dirExists : Bool
  visFunctions : List (String × VisInfo)
  pyFiles : List (String × String)
  pthFiles : List (String × Payload)
  visFileSizes : List (String × ℕ)
deriving DecidableEq

/-- Fresh logger: no visualizations yet. -/
def visInit : VisState := ⟨false, [], [], [], []⟩

/-- Errors raised by `visualize`. -/
inductive VisErr where
  | identityConflict
  | badName
  | badFunc
deriving DecidableEq

/-- Update an existing key or append a new one (Python dict assignment,
also overwriting a file). -/
def setOrAdd {α : Type} (l : List (String × α)) (k : String) (v : α) :
    List (String × α) :=
  if (l.lookup k).isSome then setEntry l k v else l ++ [(k, v)]

/-- Tail of `visualize` after registration has succeeded: pickle
`{func, source, args, kwargs}` into `<name>.pth`, then compare the file
size with the last recorded one and append a single zero byte when they
coincide, so that pollers watching sizes always see a change (`psize` gives
the serialized size of a payload). -/
def savePayload (psize : Payload → ℕ) (s : VisState) (func : Func)
    (name source : String) (argsTok : ℕ) : VisState × Option VisErr :=
  let payload : Payload := ⟨func, source, argsTok⟩
  let s := { s with pthFiles := setOrAdd s.pthFiles name payload }
  let size := psize payload
  match s.visFileSizes.lookup name with
  | some old =>
      if old = size then
        ({ s with visFileSizes := setOrAdd s.visFileSizes name (size + 1) }, none)
      else
        ({ s with visFileSizes := setOrAdd s.visFileSizes name size }, none)
  | none => ({ s with visFileSizes := setOrAdd s.visFileSizes name size }, none)

/-- `Logger.visualize(func, name, *args, **kwargs)`.  The returned state
reflects the mutations performed before a raise (only the directory
creation precedes the identity check). -/
def visualize (psize : Payload → ℕ) (s : VisState) (func : Func)
    (name : String) (argsTok : ℕ) : VisState × Option VisErr :=
  let s := { s with dirExists := true }
  match s.visFunctions.lookup name with
  | some info =>
      if info.func ≠ func then (s, some .identityConflict)
      else savePayload psize s func name info.source argsTok
  | none =>
      if name.data.contains '\t' then (s, some .badName)
      else
        match func with
        | .tensorStr =>
            let s := { s with
              visFunctions := s.visFunctions ++ [(name, ⟨func, "builtin"⟩)] }
            savePayload psize s func name "builtin" argsTok
        | .user _ src isLam isMeth =>
            match src with
            | none => (s, some .badFunc)
            | some p =>
                if p = "" || isLam || isMeth then (s, some .badFunc)
                else
                  let s := { s with
                    pyFiles := setOrAdd s.pyFiles name p,
                    visFunctions := s.visFunctions ++ [(name, ⟨func, p⟩)] }
                  savePayload psize s func name p argsTok

/-- C8: calling `visualize` under a previously used name with a different
function than the one registered for that name raises the identity-conflict
error, and the failing call leaves every file of the run untouched: the
`.pth` payloads, the frozen `.py` sources, the registry and the recorded
sizes are all exactly as before the call. -/
theorem visualize_identity_conflict (psize : Payload → ℕ) (s : VisState)
    (func : Func) (name : String) (tok : ℕ) (info : VisInfo)
    (hreg : s.visFunctions.lookup name = some info)
    (hne : info.func ≠ func) :
    (visualize psize s func name tok).2 = some VisErr.identityConflict ∧
    (visualize psize s func name tok).1.pthFiles = s.pthFiles ∧
    (visualize psize s func name tok).1.pyFiles = s.pyFiles ∧
    (visualize psize s func name tok).1.visFunctions = s.visFunctions ∧
    (visualize psize s func name tok).1.visFileSizes = s.visFileSizes := by
  unfold visualize
  simp only [hreg]
  rw [if_pos hne]
  exact ⟨rfl, rfl, rfl, rfl, rfl⟩

/-- Witness for `visualize_identity_conflict`: register name `A` with one
user function, then call again under `A` with a different function. -/
theorem visualize_identity_conflict_witness :
    (visualize (fun _ => 1)
      (visualize (fun _ => 1) visInit (.user 0 (some "vis.py") false false)
        "A" 0).1
      (.user 1 (some "vis.py") false false) "A" 1).2
        = some VisErr.identityConflict :=
  (visualize_identity_conflict (fun _ => 1)
    (visualize (fun _ => 1) visInit (.user 0 (some "vis.py") false false)
      "A" 0).1
    (.user 1 (some "vis.py") false false) "A" 1
    ⟨.user 0 (some "vis.py") false false, "vis.py"⟩ (by decide)
    (by decide)).1

end PkgLogger

namespace GuiLogger

/-!
Model of `Logger.visualize` from `src/overboard/logger.py` (the GUI-side
logger variant): after saving the payload it rewrites the single
`visualizations` index file with one `"<name>\t<count>\n"` line per known
visualization plus a cycling number of trailing spaces,
`vis_padding = vis_padding % (len(vis_counts) + 1) + 1`, so that the byte
size of the index file changes on every update.  User functions are
abstracted to numeric identities; only successful calls (which are the ones
that rewrite the file) are modelled as steps.
-/

/-- Number of characters of the decimal representation written by
`"%i" % n`. -/
def decLen (n : ℕ) : ℕ := if n = 0 then 1 else (Nat.digits 10 n).length

/-- Byte count of one index line `"<name>\t<count>\n"`. -/
def lineSize (name : String) (count : ℕ) : ℕ :=
  name.length + 1 + decLen count + 1

/-- Byte count of all index lines, in dict order. -/
def contentSize (counts : List (String × ℕ)) : ℕ :=
  (counts.map fun p => lineSize p.1 p.2).sum

/-- Writer state relevant to the `visualizations` index file. -/
structure VisState where
  visFunctions : List (String × ℕ)
  visCounts : List (String × ℕ)
  visPadding : ℕ
deriving DecidableEq

/-- State right after `Logger.__init__`: empty registry, empty counts, no
padding (the index file is created empty). -/
def visInit : VisState := ⟨[], [], 0⟩

/-- Total byte size of the `visualizations` index file. -/
def fileSize (s : VisState) : ℕ := contentSize s.visCounts + s.visPadding

/-- `self.vis_counts[name] += 1`. -/
def bump (l : List (String × ℕ)) (name : String) : List (String × ℕ) :=
  l.map fun p => if p.1 = name then (p.1, p.2 + 1) else p

/-- One successful `visualize(func, name, ...)` call: reuse or register the
function for `name` (a rebinding to a different function raises and is not
a step), bump the per-name count, rewrite the index file and advance the
padding by `vis_padding % (len(vis_counts) + 1) + 1`. -/
def visStep (s : VisState) (func : ℕ) (name : String) : Option VisState :=
  match s.visFunctions.lookup name with
  | some f =>
      if f = func then
        let counts := bump s.visCounts name
        some ⟨s.visFunctions, counts, s.visPadding % (counts.length + 1) + 1⟩
      else none
  | none =>
      if name.data.contains '\t' then none
      else
        let counts := bump (s.visCounts ++ [(name, 0)]) name
        some ⟨s.visFunctions ++ [(name, func)], counts,
          s.visPadding % (counts.length + 1) + 1⟩

/-- States reachable by successful `visualize` calls from a fresh logger. -/
inductive Reach : VisState → Prop where
  | init : Reach visInit
  | step (s : VisState) (f : ℕ) (n : String) (s2 : VisState) :
      Reach s → visStep s f n = some s2 → Reach s2

/-- Reachability invariant of the index state. -/
structure Inv (s : VisState) : Prop where
  keysEq : s.visFunctions.map Prod.fst = s.visCounts.map Prod.fst
  nodup : (s.visCounts.map Prod.fst).Nodup
  pos : ∀ p ∈ s.visCounts, 1 ≤ p.2
  padLe : s.visPadding ≤ s.visCounts.length + 1
  padEmpty : s.visCounts = [] → s.visPadding = 0
  padPos : s.visCounts ≠ [] → 1 ≤ s.visPadding
  padSingle : ∀ n c, s.visCounts = [(n, c)] → s.visPadding = 2 - c % 2

theorem decLen_eq_log (c : ℕ) (hc : 1 ≤ c) :
    decLen c = Nat.log 10 c + 1 := by
  rw [decLen, if_neg (by omega), Nat.digits_len 10 c (by norm_num) (by omega)]

theorem decLen_mono_succ (c : ℕ) : decLen c ≤ decLen (c + 1) := by
  cases c with
  | zero => simp [decLen]
  | succ c =>
      rw [decLen_eq_log _ (by omega), decLen_eq_log _ (by omega)]
      have := Nat.log_mono_right (b := 10) (Nat.le_succ (c + 1))
      simp only [Nat.succ_eq_add_one] at this
      omega

theorem decLen_succ_le (c : ℕ) : decLen (c + 1) ≤ decLen c + 1 := by
  cases c with
  | zero => simp [decLen]
  | succ c =>
      rw [decLen_eq_log _ (by omega), decLen_eq_log _ (by omega)]
      have h1 : c + 1 + 1 ≤ 10 ^ (Nat.log 10 (c + 1) + 1) :=
        Nat.lt_pow_succ_log_self (by norm_num) (c + 1)
      have h2 : 10 ^ (Nat.log 10 (c + 1) + 1) < 10 ^ (Nat.log 10 (c + 1) + 2) := by
        exact Nat.pow_lt_pow_right (by norm_num) (by omega)
      have h3 : Nat.log 10 (c + 1 + 1) < Nat.log 10 (c + 1) + 2 := by
        rw [← Nat.lt_pow_iff_log_lt (by norm_num) (by omega)]
        omega
      omega

theorem decLen_succ_of_even (c : ℕ) (hc : 1 ≤ c) (he : c % 2 = 0) :
    decLen (c + 1) = decLen c := by
  refine le_antisymm ?_ (decLen_mono_succ c)
  rw [decLen_eq_log _ hc, decLen_eq_log _ (by omega)]
  by_contra hgt
  push_neg at hgt
  have hle : Nat.log 10 c + 1 ≤ Nat.log 10 (c + 1) := by omega
  have hpow : 10 ^ (Nat.log 10 c + 1) ≤ c + 1 :=
    (Nat.pow_le_iff_le_log (by norm_num) (by omega)).mpr hle
  have hlt : c < 10 ^ (Nat.log 10 c + 1) :=
    Nat.lt_pow_succ_log_self (by norm_num) c
  have heq : c + 1 = 10 ^ (Nat.log 10 c + 1) := by omega
  have hdvd : 2 ∣ 10 ^ (Nat.log 10 c + 1) :=
    dvd_pow (by norm_num) (by omega)
  rw [← heq] at hdvd
  omega

theorem bump_keys (l : List (String × ℕ)) (name : String) :
    (bump l name).map Prod.fst = l.map Prod.fst := by
  induction l with
  | nil => rfl
  | cons p t ih =>
      simp only [bump, List.map_cons] at ih ⊢
      by_cases h : p.1 = name <;> simp [h, ih]

theorem bump_length (l : List (String × ℕ)) (name : String) :
    (bump l name).length = l.length := by
  simp [bump]

theorem bump_not_mem (l : List (String × ℕ)) (name : String)
    (h : name ∉ l.map Prod.fst) : bump l name = l := by
  induction l with
  | nil => rfl
  | cons p t ih =>
      simp only [List.map_cons, List.mem_cons] at h
      push_neg at h
      simp only [bump, List.map_cons]
      rw [if_neg (fun he => h.1 he.symm)]
      have := ih (by simpa [bump] using h.2)
      simpa [bump] using this

theorem bump_append_fresh (l : List (String × ℕ)) (name : String)
    (h : name ∉ l.map Prod.fst) :
    bump (l ++ [(name, 0)]) name = l ++ [(name, 1)] := by
  simp only [bump, List.map_append]
  rw [show (List.map (fun p => if p.1 = name then (p.1, p.2 + 1) else p) l) = l
    from by simpa [bump] using bump_not_mem l name h]
  simp

theorem contentSize_cons (p : String × ℕ) (t : List (String × ℕ)) :
    contentSize (p :: t) = lineSize p.1 p.2 + contentSize t := by
  simp [contentSize]

theorem contentSize_append_single (l : List (String × ℕ)) (n : String) (c : ℕ) :
    contentSize (l ++ [(n, c)]) = contentSize l + lineSize n c := by
  simp [contentSize]

theorem contentSize_bump (l : List (String × ℕ)) (n : String) (c : ℕ)
    (hnd : (l.map Prod.fst).Nodup) (hl : l.lookup n = some c) :
    contentSize (bump l n) + decLen c = contentSize l + decLen (c + 1) := by
  induction l with
  | nil => simp at hl
  | cons p t ih =>
      obtain ⟨k, d⟩ := p
      simp only [List.map_cons, List.nodup_cons] at hnd
      rw [List.lookup_cons] at hl
      cases hbeq : n == k with
      | true =>
          rw [hbeq] at hl
          obtain rfl : c = d := by simpa using hl.symm
          obtain rfl : n = k := eq_of_beq hbeq
          have hbt : bump t n = t := bump_not_mem t n hnd.1
          have hb : bump ((n, c) :: t) n = (n, c + 1) :: t := by
            simp only [bump, List.map_cons] at hbt ⊢
            simp [hbt]
          rw [hb, contentSize_cons, contentSize_cons]
          simp only [lineSize]
          omega
      | false =>
          rw [hbeq] at hl
          have hne : ¬((n, c).1 = k) := by
            simpa using ne_of_beq_false hbeq
          simp only [bump, List.map_cons]
          rw [if_neg (by simpa using fun he => hne (by simp [he]))]
          have := ih hnd.2 hl
          rw [contentSize_cons, contentSize_cons]
          simp only [bump] at this
          omega

theorem mem_keys_of_lookup_some {α : Type} (l : List (String × α))
    (k : String) (v : α) (h : l.lookup k = some v) : k ∈ l.map Prod.fst :=
  List.mem_map.mpr ⟨(k, v), PkgLogger.lookup_mem l k v h, rfl⟩

theorem not_mem_keys_of_lookup_none {α : Type} (l : List (String × α))
    (k : String) (h : l.lookup k = none) : k ∉ l.map Prod.fst := by
  intro hm
  obtain ⟨v, hv⟩ := PkgLogger.lookup_isSome_of_mem_keys l k
    (by simpa [PkgLogger.keysOf] using hm)
  rw [hv] at h
  cases h

theorem decLen_one : decLen 1 = 1 := by
  rw [decLen_eq_log 1 le_rfl, Nat.log_one_right]


theorem Inv_visStep (s : VisState) (h : Inv s) (f : ℕ) (n : String)
    (s2 : VisState) (hstep : visStep s f n = some s2) : Inv s2 := by
  rw [visStep] at hstep
  cases hlk : s.visFunctions.lookup n with
  | some fr =>
      rw [hlk] at hstep
      dsimp only at hstep
      by_cases hf : fr = f
      · rw [if_pos hf] at hstep
        obtain rfl : (⟨s.visFunctions, bump s.visCounts n,
            s.visPadding % ((bump s.visCounts n).length + 1) + 1⟩ : VisState)
              = s2 := by
          simpa using hstep
        have hnk : n ∈ s.visCounts.map Prod.fst := by
          rw [← h.keysEq]
          exact mem_keys_of_lookup_some _ _ _ hlk
        have hne : s.visCounts ≠ [] := by
          intro hc; rw [hc] at hnk; simp at hnk
        refine ⟨?_, ?_, ?_, ?_, ?_, ?_, ?_⟩
        · rw [bump_keys]; exact h.keysEq
        · rw [bump_keys]; exact h.nodup
        · intro p hp
          simp only [bump] at hp
          rcases List.mem_map.mp hp with ⟨q, hq, hfq⟩
          by_cases hq1 : q.1 = n
          · rw [if_pos hq1] at hfq; rw [← hfq]; simp
          · rw [if_neg hq1] at hfq; rw [← hfq]; exact h.pos q hq
        · have := Nat.mod_lt s.visPadding
            (y := (bump s.visCounts n).length + 1) (by omega)
          dsimp only
          omega
        · intro hc
          have : s.visCounts = [] := by simpa [bump] using hc
          exact absurd this hne
        · intro _; dsimp only; omega
        · intro m c2 hc2
          cases hcounts : s.visCounts with
          | nil => exact absurd hcounts hne
          | cons p t =>
              cases t with
              | cons q t2 =>
                  rw [hcounts] at hc2
                  simp [bump] at hc2
              | nil =>
                  obtain ⟨k, d⟩ := p
                  rw [hcounts] at hnk
                  simp only [List.map_cons, List.map_nil,
                    List.mem_singleton] at hnk
                  subst hnk
                  have hpad := h.padSingle n d hcounts
                  rw [hcounts] at hc2
                  simp [bump] at hc2
                  obtain ⟨h1, h2⟩ := hc2
                  subst h1
                  subst h2
                  simp only [hcounts, bump, List.map_cons, List.map_nil,
                    List.length_cons, List.length_nil]
                  omega
      · simp [hf] at hstep
  | none =>
      rw [hlk] at hstep
      dsimp only at hstep
      by_cases htab : n.data.contains '\t' = true
      · rw [if_pos htab] at hstep; cases hstep
      · rw [if_neg htab] at hstep
        obtain rfl : (⟨s.visFunctions ++ [(n, f)],
            bump (s.visCounts ++ [(n, 0)]) n,
            s.visPadding % ((bump (s.visCounts ++ [(n, 0)]) n).length + 1) + 1⟩
              : VisState) = s2 := by
          simpa using hstep
        have hnotin : n ∉ s.visCounts.map Prod.fst := by
          rw [← h.keysEq]
          exact not_mem_keys_of_lookup_none _ _ hlk
        have hfresh : bump (s.visCounts ++ [(n, 0)]) n
            = s.visCounts ++ [(n, 1)] := bump_append_fresh _ _ hnotin
        have hdisj : List.Disjoint (s.visCounts.map Prod.fst) [n] := by
          intro a ha hb
          rw [List.mem_singleton] at hb
          subst hb
          exact hnotin ha
        refine ⟨?_, ?_, ?_, ?_, ?_, ?_, ?_⟩
        · rw [hfresh]
          simp only [List.map_append]
          rw [h.keysEq]
          simp
        · rw [hfresh]
          simp only [List.map_append]
          exact List.Nodup.append h.nodup (by simp) hdisj
        · intro p hp
          rw [hfresh] at hp
          rcases List.mem_append.mp hp with hp | hp
          · exact h.pos p hp
          · rw [List.mem_singleton] at hp; rw [hp]
        · have := Nat.mod_lt s.visPadding
            (y := (bump (s.visCounts ++ [(n, 0)]) n).length + 1) (by omega)
          dsimp only
          omega
        · intro hc
          rw [hfresh] at hc
          simp at hc
        · intro _; dsimp only; omega
        · intro m c2 hc2
          rw [hfresh] at hc2
          cases hcounts : s.visCounts with
          | cons p t =>
              rw [hcounts] at hc2
              rw [List.cons_append, List.cons.injEq] at hc2
              obtain ⟨-, habs⟩ := hc2
              exact absurd habs (by simp)
          | nil =>
              rw [hcounts] at hc2
              rw [List.nil_append, List.cons.injEq] at hc2
              obtain ⟨h1, -⟩ := hc2
              rw [Prod.mk.injEq] at h1
              obtain ⟨rfl, rfl⟩ := h1
              have hpad0 := h.padEmpty hcounts
              simp only [hcounts, bump, List.nil_append, List.map_cons,
                List.map_nil, List.length_cons, List.length_nil]
              omega

theorem Inv_of_Reach {s : VisState} (h : Reach s) : Inv s := by
  induction h with
  | init =>
      exact ⟨rfl, by simp [visInit], by simp [visInit], by simp [visInit],
        fun _ => rfl, by simp [visInit], fun n c hc => by simp [visInit] at hc⟩
  | step s f n s2 _ hstep ih => exact Inv_visStep s ih f n s2 hstep

theorem visStep_fileSize (s : VisState) (h : Inv s) (f : ℕ) (n : String)
    (s2 : VisState) (hstep : visStep s f n = some s2) :
    fileSize s2 ≠ fileSize s := by
  rw [visStep] at hstep
  cases hlk : s.visFunctions.lookup n with
  | some fr =>
      rw [hlk] at hstep
      dsimp only at hstep
      by_cases hf : fr = f
      · rw [if_pos hf] at hstep
        obtain rfl : (⟨s.visFunctions, bump s.visCounts n,
            s.visPadding % ((bump s.visCounts n).length + 1) + 1⟩ : VisState)
              = s2 := by
          simpa using hstep
        have hnk : n ∈ s.visCounts.map Prod.fst := by
          rw [← h.keysEq]
          exact mem_keys_of_lookup_some _ _ _ hlk
        have hne : s.visCounts ≠ [] := by
          intro hc; rw [hc] at hnk; simp at hnk
        obtain ⟨c, hc⟩ := PkgLogger.lookup_isSome_of_mem_keys s.visCounts n
          (by simpa [PkgLogger.keysOf] using hnk)
        have hcpos : 1 ≤ c := h.pos _ (PkgLogger.lookup_mem _ _ _ hc)
        have hCS := contentSize_bump s.visCounts n c h.nodup hc
        have hlen : (bump s.visCounts n).length = s.visCounts.length :=
          bump_length _ _
        have hNpos : 1 ≤ s.visCounts.length :=
          List.length_pos.mpr hne
        have hpadpos : 1 ≤ s.visPadding := h.padPos hne
        have hpadle : s.visPadding ≤ s.visCounts.length + 1 := h.padLe
        have hmono := decLen_mono_succ c
        have hsuccle := decLen_succ_le c
        simp only [fileSize]
        rw [hlen]
        by_cases hp : s.visPadding ≤ s.visCounts.length
        · rw [Nat.mod_eq_of_lt (by omega)]
          omega
        · have hpad : s.visPadding = s.visCounts.length + 1 := by omega
          rw [hpad, Nat.mod_self]
          intro heq
          have hN1 : s.visCounts.length = 1 := by omega
          obtain ⟨p, hcounts⟩ : ∃ p, s.visCounts = [p] := by
            cases hcs : s.visCounts with
            | nil => rw [hcs] at hN1; simp at hN1
            | cons q t =>
                cases t with
                | nil => exact ⟨q, rfl⟩
                | cons q2 t2 => rw [hcs] at hN1; simp at hN1
          obtain ⟨k, d⟩ := p
          have hkn : n = k := by
            rw [hcounts] at hnk
            simpa using hnk
          subst hkn
          have hdc : c = d := by
            rw [hcounts] at hc
            simp [List.lookup_cons] at hc
            omega
          subst hdc
          have hpadsingle := h.padSingle _ _ hcounts
          have hceven : c % 2 = 0 := by
            rw [hcounts] at hpad
            simp at hpad
            omega
          have := decLen_succ_of_even c hcpos hceven
          omega
      · simp [hf] at hstep
  | none =>
      rw [hlk] at hstep
      dsimp only at hstep
      by_cases htab : n.data.contains '\t' = true
      · rw [if_pos htab] at hstep; cases hstep
      · rw [if_neg htab] at hstep
        obtain rfl : (⟨s.visFunctions ++ [(n, f)],
            bump (s.visCounts ++ [(n, 0)]) n,
            s.visPadding % ((bump (s.visCounts ++ [(n, 0)]) n).length + 1) + 1⟩
              : VisState) = s2 := by
          simpa using hstep
        have hnotin : n ∉ s.visCounts.map Prod.fst := by
          rw [← h.keysEq]
          exact not_mem_keys_of_lookup_none _ _ hlk
        have hfresh : bump (s.visCounts ++ [(n, 0)]) n
            = s.visCounts ++ [(n, 1)] := bump_append_fresh _ _ hnotin
        simp only [fileSize]
        rw [hfresh, contentSize_append_single]
        have hlen2 : (s.visCounts ++ [(n, 1)]).length
            = s.visCounts.length + 1 := by simp
        rw [hlen2]
        rw [Nat.mod_eq_of_lt (by have := h.padLe; omega)]
        have hls : lineSize n 1 = n.length + 3 := by
          simp [lineSize, decLen_one]
        omega

/-- C6: within one session, every successful `visualize` call changes the
total byte size of the `visualizations` index file: from any reachable
writer state, the index size after the call differs from the size after the
immediately preceding call, even when the name/count lines alone would
repeat a previous size — the cycling trailing-space padding guarantees the
change. -/
theorem visualize_changes_index_size (s : VisState) (h : Reach s) (f : ℕ)
    (n : String) (s2 : VisState) (hstep : visStep s f n = some s2) :
    fileSize s2 ≠ fileSize s :=
  visStep_fileSize s (Inv_of_Reach h) f n s2 hstep

/-- Witness for `visualize_changes_index_size`: the first call on a fresh
logger grows the index file from 0 bytes to a positive size. -/
theorem visualize_changes_index_size_witness :
    fileSize ⟨[("A", 0)], [("A", 1)], 1⟩ ≠ fileSize visInit :=
  visualize_changes_index_size visInit Reach.init 0 "A"
    ⟨[("A", 0)], [("A", 1)], 1⟩ (by decide)

end GuiLogger

namespace Tailer

/-!
Model of `ExperimentReader.read_lines` and `ExperimentReader.read_data_fast`
from `src/overboard/experiments.py`.

The file is a list of characters as seen by the text-mode reader
(universal-newline translation makes the line feed the only terminator
character that `readline` returns).  Per-field value conversion (float,
then ISO date, then raw string) affects only the value representation and
never the control flow, so fields are kept as their raw text.

The completion test in the source is
`1 <= len(line) <= 2 and (char in ('\n', '\r') for char in line)`: the
second conjunct is a generator expression, which is always truthy in a
boolean context, so the branch is taken for every line of length 1 or 2 —
the embedding keeps exactly that behavior.
-/

/-- `file.readline()` on the suffix starting at the current position:
characters up to and including the first line feed, or up to the end of the
currently written bytes when no terminator follows. -/
def readline : List Char → List Char
  | [] => []
  | c :: rest => if c = '\n' then ['\n'] else c :: readline rest

/-- Python `str.strip()`. -/
def stripChars (l : List Char) : List Char :=
  ((l.dropWhile Char.isWhitespace).reverse.dropWhile Char.isWhitespace).reverse

/-- `re.split(r'(?<!\\),', line)`: split on commas not preceded by a
backslash (`acc` holds the current field reversed). -/
def splitUnescAux : List Char → List Char → List (List Char)
  | acc, [] => [acc.reverse]
  | acc, c :: rest =>
      if c = ',' ∧ acc.head? ≠ some '\\' then
        acc.reverse :: splitUnescAux [] rest
      else splitUnescAux (c :: acc) rest

def splitUnescaped (l : List Char) : List (List Char) := splitUnescAux [] l

/-- `line.split(',')`. -/
def splitAllAux : List Char → List Char → List (List Char)
  | acc, [] => [acc.reverse]
  | acc, c :: rest =>
      if c = ',' then acc.reverse :: splitAllAux [] rest
      else splitAllAux (c :: acc) rest

def splitAll (l : List Char) : List (List Char) := splitAllAux [] l

/-- Observable outcome of one `read_lines` invocation: the header emitted
through `header_ready` (if any), the rows emitted through `data_ready`
(empty when an `IOError` escapes, since the emission happens after the
loop), the `done` signal, the resume position, and the updated reader
state. -/
structure TailResult where
  header : Option (List String)
  rows : List (ℕ × List String)
  done : Bool
  lineStart : ℕ
  errored : Bool
  numColumns : Option ℕ
  numRows : ℕ
deriving DecidableEq

/-- The `while True` loop of `read_lines`, with explicit fuel (any fuel
larger than the number of remaining characters is enough, since every
iteration that continues consumes a complete line of at least 3
characters). -/
def readLinesAux (file : List Char) : ℕ → ℕ → Option ℕ → ℕ →
    List (ℕ × List String) → Option (List String) → TailResult
  | 0, pos, nc, nr, rows, hdr => ⟨hdr, rows, false, pos, false, nc, nr⟩
  | fuel + 1, pos, nc, nr, rows, hdr =>
      let lineStart := pos
      let line := readline (file.drop pos)
      -- source line 268: the generator expression is always truthy, so
      -- only the length bounds decide this branch
      if 1 ≤ line.length ∧ line.length ≤ 2 then
        ⟨hdr, rows, true, lineStart, false, nc, nr⟩
      -- end of written bytes reached with no terminator: incomplete line
      else if line.length = 0 ∨ line.getLast? ≠ some '\n' then
        ⟨hdr, rows, false, lineStart, false, nc, nr⟩
      else
        match nc with
        | none =>
            let headers := splitUnescaped (stripChars line)
            if headers.length = 0 then ⟨hdr, [], false, lineStart, true, nc, nr⟩
            else
              let headers2 := "iteration" :: headers.map fun c => String.mk c
              readLinesAux file fuel (pos + line.length)
                (some headers2.length) nr rows (some headers2)
        | some ncols =>
            let fields := (splitAll line).map fun c => String.mk c
            if 1 + fields.length ≠ ncols then
              ⟨hdr, [], false, lineStart, true, nc, nr⟩
            else
              readLinesAux file fuel (pos + line.length) (some ncols)
                (nr + 1) (rows ++ [(nr, fields)]) hdr

/-- One `read_lines(file)` invocation from position `pos` with reader state
`(num_columns, num_rows)`. -/
def readLines (file : List Char) (pos : ℕ) (nc : Option ℕ) (nr : ℕ) :
    TailResult :=
  readLinesAux file (file.length + 1) pos nc nr [] none

/-- Everything `read_data_fast` has emitted over a polling run. -/
structure RunResult where
  rows : List (ℕ × List String)
  headers : List (List String)
  done : Bool
  errored : Bool
deriving DecidableEq

/-- The polling loop of `read_data_fast` over successive snapshots of the
growing file: the first call reads from position 0; each later call seeks
back to the reported resume position; the loop exits when `done` is
signalled (or an error escapes). -/
def readDataFastAux : List (List Char) → ℕ → Option ℕ → ℕ → RunResult →
    RunResult
  | [], _, _, _, acc => acc
  | snap :: rest, pos, nc, nr, acc =>
      if acc.done ∨ acc.errored then acc
      else
        let r := readLines snap pos nc nr
        readDataFastAux rest r.lineStart r.numColumns r.numRows
          ⟨acc.rows ++ r.rows,
           acc.headers ++ (match r.header with | some h => [h] | none => []),
           r.done, r.errored⟩

def readDataFast (snapshots : List (List Char)) : RunResult :=
  readDataFastAux snapshots 0 none 0 ⟨[], [], false, false⟩

/-- C1 fails on the code: after the header `a`, the next line of the file
is the terminated data row `5` + line feed — not a bare terminator — yet
`read_lines` signals run completion there (and parses no row), because the
completion test mis-uses a generator expression and accepts every line of
length 1 or 2. -/
theorem readLines_completion_despite_content :
    (readLines ("ab\n5\n".data) 0 none 0).done = true ∧
    (readLines ("ab\n5\n".data) 0 none 0).rows = [] ∧
    (readLines ("ab\n5\n".data) 0 none 0).errored = false ∧
    (readLines ("ab\n5\n".data) 0 none 0).lineStart = 3 ∧
    (readLines ("ab\n5\n".data) 0 none 0).header
      = some ["iteration", "ab"] ∧
    readline (("ab\n5\n".data).drop 3) = ['5', '\n'] ∧
    ¬(['5', '\n'] = ['\n'] ∨ ['5', '\n'] = ['\r'] ∨
      ['5', '\n'] = ['\r', '\n']) := by
  decide

/-- C2 fails on the code: the partial line `42` (terminator not yet
written) is indeed not reported as a row and the resume position points
before it, but the same length-2 bug makes `read_lines` signal completion
at the partial line, so the polling loop stops and the row is reported
zero times — not exactly once — after the terminator is appended. -/
theorem readDataFast_drops_row_after_partial_line :
    (readDataFast ["ab\n42".data, "ab\n42\n".data]).rows = [] ∧
    (readDataFast ["ab\n42".data, "ab\n42\n".data]).done = true ∧
    (readLines ("ab\n42".data) 0 none 0).rows = [] ∧
    (readLines ("ab\n42".data) 0 none 0).lineStart = 3 ∧
    readline (("ab\n42".data).drop 3) = ['4', '2'] := by
  decide

end Tailer

namespace VisLoader

/-!
Model of `VisualizationsLoader.poll` from `src/overboard/visualizations.py`
(lines 263-335).  Directory entries are the `Info` objects returned by
`fs.filterdir(..., namespaces=['details'])`: name plus the size recorded
when the listing was taken (the `size` attribute of an entry is a snapshot,
it is not re-read from the filesystem).  One `poll` call processes at most
one entry: the pending retry entry if one is set, else the next entry of
the current directory iterator (a fresh listing is taken when the iterator
is exhausted and the experiment is not done).  Deserialization outcomes are
supplied by the `loadRes` oracle and frozen-source reads by `srcRead`.
-/

/-- A directory entry with its size at listing time. -/
structure Entry where
  name : String
  size : ℕ
deriving DecidableEq

/-- Outcome of deserializing one `.pth` payload. -/
inductive LoadResult where
  | ok
  | storageSizeError
  | otherError
deriving DecidableEq

/-- Loader state across poll ticks (after `select_folder`). -/
structure LoaderState where
  knownFileSizes : List (String × ℕ)
  filesIterator : Option (List Entry)
  retryFile : Option Entry
  sourceCode : List (String × Option String)
  expDone : Bool
deriving DecidableEq

/-- State right after `select_folder` on a live experiment. -/
def loaderInit : LoaderState := ⟨[], none, none, [], false⟩

/-- Observable events of one poll tick. -/
structure PollEvents where
  loadAttempted : List String
  emitted : List String
  logged : List String
deriving DecidableEq

/-- One `poll()` tick (base folder selected and filesystem available). -/
def poll (s : LoaderState) (listing : List Entry)
    (loadRes : String → LoadResult) (srcRead : String → Option String) :
    LoaderState × PollEvents :=
  let it := match s.filesIterator with
    | none => listing
    | some l => l
  let pick : Option Entry × List Entry × Option Entry :=
    match s.retryFile with
    | some e => (some e, it, none)
    | none =>
        match it with
        | [] => (none, [], none)
        | e :: rest => (some e, rest, none)
  match pick with
  | (none, _, _) =>
      if s.expDone then
        ({ s with filesIterator := some [] }, ⟨[], [], []⟩)
      else
        ({ s with filesIterator := none, retryFile := none }, ⟨[], [], []⟩)
  | (some entry, rest, _) =>
      let name := entry.name.dropRight 4
      let newSize := entry.size
      if s.knownFileSizes.lookup name ≠ some newSize then
        let known := PkgLogger.setOrAdd s.knownFileSizes name newSize
        let src :=
          if (s.sourceCode.lookup name).isSome then s.sourceCode
          else s.sourceCode ++ [(name, srcRead name)]
        match loadRes name with
        | .ok =>
            (⟨known, some rest, none, src, s.expDone⟩, ⟨[name], [name], []⟩)
        | .storageSizeError =>
            (⟨known, some rest, some entry, src, s.expDone⟩, ⟨[name], [], []⟩)
        | .otherError =>
            (⟨known, some rest, none, src, s.expDone⟩, ⟨[name], [], [name]⟩)
      else
        ({ s with filesIterator := some rest, retryFile := none }, ⟨[], [], []⟩)

/-- C9 fails on the code: when deserializing `A.pth` raises the
storage-size (partial-write) error, the entry is stored in `retry_file` and
re-examined on the next tick — but `known_file_sizes` was already updated
to the entry size before the failed load, and the retry re-checks the same
cached entry size, so the size test fails and the payload is NOT
deserialized again on the next tick: no load attempt, no emission and no
log happen, and the retry entry is simply dropped.  Re-loading only happens
after a later fresh directory listing observes a different file size. -/
theorem retry_tick_skips_reload :
    (((poll loaderInit [⟨"A.pth", 5⟩] (fun _ => .storageSizeError)
        (fun _ => none)).1).retryFile = some ⟨"A.pth", 5⟩) ∧
    ((poll loaderInit [⟨"A.pth", 5⟩] (fun _ => .storageSizeError)
        (fun _ => none)).2.loadAttempted = ["A"]) ∧
    ((poll loaderInit [⟨"A.pth", 5⟩] (fun _ => .storageSizeError)
        (fun _ => none)).2.logged = []) ∧
    (((poll loaderInit [⟨"A.pth", 5⟩] (fun _ => .storageSizeError)
        (fun _ => none)).1).knownFileSizes = [("A", 5)]) ∧
    ((poll (poll loaderInit [⟨"A.pth", 5⟩] (fun _ => .storageSizeError)
        (fun _ => none)).1 [⟨"A.pth", 5⟩] (fun _ => .storageSizeError)
        (fun _ => none)).2 = ⟨[], [], []⟩) ∧
    (((poll (poll loaderInit [⟨"A.pth", 5⟩] (fun _ => .storageSizeError)
        (fun _ => none)).1 [⟨"A.pth", 5⟩] (fun _ => .storageSizeError)
        (fun _ => none)).1).retryFile = none) := by
  decide

end VisLoader

namespace Crawler

/-!
Model of `ExperimentsCrawler.start_crawling` from
`src/overboard/experiments.py` (lines 56-88).  Each poll cycle walks the
tree; the walk yields `stats.csv` paths one at a time.  A path not in
`known_files` is appended to the `new_files` batch; the elapsed-time check
(taken only inside the new-file branch) may flush the batch mid-walk, and a
final flush happens after the walk; every flush emits the batch, adds it to
`known_files` and clears it.  The timing outcome of each elapsed-time check
enters the model as a boolean attached to the walked path, so the theorem
quantifies over every possible batch-flush schedule. -/

/-- Crawler state across cycles: the reported set and the pending batch. -/
structure CrawlState where
  knownFiles : List String
  batch : List String
deriving DecidableEq

/-- Emit and clear the pending batch (no-op when it is empty, matching the
`len(new_files) > 0` guard). -/
def flush (s : CrawlState) : CrawlState × List (List String) :=
  if s.batch.isEmpty then (s, [])
  else (⟨s.knownFiles ++ s.batch, []⟩, [s.batch])

/-- Process one walked path; `doFlush` is the outcome of the elapsed-time
check performed after appending a new file. -/
def procFile (s : CrawlState) (f : String) (doFlush : Bool) :
    CrawlState × List (List String) :=
  if f ∈ s.knownFiles then (s, [])
  else
    let s := { s with batch := s.batch ++ [f] }
    if doFlush then flush s else (s, [])

/-- Process one full walk (a poll cycle), ending with the final flush. -/
def procWalk (s : CrawlState) (walk : List (String × Bool)) :
    CrawlState × List (List String) :=
  match walk with
  | [] => flush s
  | (f, b) :: rest =>
      let r1 := procFile s f b
      let r2 := procWalk r1.1 rest
      (r2.1, r1.2 ++ r2.2)

def crawlAux : List (List (String × Bool)) → CrawlState →
    List (List String) → CrawlState × List (List String)
  | [], s, out => (s, out)
  | w :: rest, s, out =>
      let r := procWalk s w
      crawlAux rest r.1 (out ++ r.2)

/-- Run the crawler over successive poll cycles (walk snapshots of the
directory tree, with run directories possibly added between cycles),
starting with an empty `known_files` set. -/
def crawl (walks : List (List (String × Bool))) :
    CrawlState × List (List String) :=
  crawlAux walks ⟨[], []⟩ []

/-- Number of times path `p` is reported across all emitted batches. -/
def countEmitted (batches : List (List String)) (p : String) : ℕ :=
  (batches.map fun b => b.count p).sum

/-- The per-path accounting invariant: each path has been emitted exactly
once if it is already known, is pending exactly once if it sits in the
batch, and has never been emitted otherwise. -/
def CInv (s : CrawlState) (emitted : List (List String)) : Prop :=
  ∀ p, countEmitted emitted p + s.batch.count p
    = if p ∈ s.knownFiles ∨ p ∈ s.batch then 1 else 0

theorem countEmitted_append (b1 b2 : List (List String)) (p : String) :
    countEmitted (b1 ++ b2) p = countEmitted b1 p + countEmitted b2 p := by
  simp [countEmitted]

theorem flush_inv {s : CrawlState} {emitted : List (List String)}
    (h : CInv s emitted) : CInv (flush s).1 (emitted ++ (flush s).2) := by
  rw [flush]
  split
  · next hb => simpa using h
  · next hb =>
      intro p
      have hh := h p
      rw [countEmitted_append]
      have h1 : countEmitted [s.batch] p = s.batch.count p := by
        simp [countEmitted]
      rw [h1]
      simp only [List.count_nil, List.mem_append, List.not_mem_nil, or_false]
      by_cases hm : p ∈ s.knownFiles ∨ p ∈ s.batch
      · rw [if_pos hm]
        rw [if_pos hm] at hh
        omega
      · rw [if_neg hm]
        rw [if_neg hm] at hh
        omega

theorem flush_batch (s : CrawlState) : (flush s).1.batch = [] := by
  rw [flush]
  split
  · next hb => simpa using hb
  · rfl

theorem procFile_batch (s : CrawlState) (f : String) (b : Bool) :
    (procFile s f b).1.batch = [] ∨ (procFile s f b).1.batch = s.batch ∨
    (procFile s f b).1.batch = s.batch ++ [f] := by
  rw [procFile]
  split
  · right; left; rfl
  · split
    · left; exact flush_batch _
    · right; right; rfl

theorem procFile_inv {s : CrawlState} {emitted : List (List String)}
    (f : String) (b : Bool) (hfb : f ∉ s.batch ∨ f ∈ s.knownFiles)
    (h : CInv s emitted) :
    CInv (procFile s f b).1 (emitted ++ (procFile s f b).2) := by
  rw [procFile]
  split
  · next hk => simpa using h
  · next hk =>
      have hfnb : f ∉ s.batch := by
        rcases hfb with hfb | hfb
        · exact hfb
        · exact absurd hfb hk
      have hmid : CInv ⟨s.knownFiles, s.batch ++ [f]⟩ emitted := by
        intro p
        have hh := h p
        rw [List.count_append]
        by_cases hpf : p = f
        · subst hpf
          have hc0 : s.batch.count p = 0 := List.count_eq_zero.mpr hfnb
          have hm : ¬(p ∈ s.knownFiles ∨ p ∈ s.batch) := by
            rintro (hx | hx)
            · exact hk hx
            · exact hfnb hx
          rw [if_neg hm] at hh
          have hm2 : p ∈ s.knownFiles ∨ p ∈ s.batch ++ [p] := by
            right; simp
          rw [if_pos hm2]
          have hc1 : List.count p [p] = 1 := by simp
          omega
        · have hcf : List.count p [f] = 0 :=
            List.count_eq_zero.mpr (by simp [hpf])
          have hmm : (p ∈ s.knownFiles ∨ p ∈ s.batch ++ [f])
              ↔ (p ∈ s.knownFiles ∨ p ∈ s.batch) := by
            simp [List.mem_append, hpf]
          by_cases hm : p ∈ s.knownFiles ∨ p ∈ s.batch
          · rw [if_pos (hmm.mpr hm)]
            rw [if_pos hm] at hh
            omega
          · rw [if_neg (fun hx => hm (hmm.mp hx))]
            rw [if_neg hm] at hh
            omega
      split
      · exact flush_inv hmid
      · simpa using hmid

theorem procWalk_inv :
    ∀ (walk : List (String × Bool)) (s : CrawlState)
      (emitted : List (List String)), CInv s emitted →
      (walk.map Prod.fst).Nodup →
      (∀ g ∈ walk.map Prod.fst, g ∉ s.batch) →
      CInv (procWalk s walk).1 (emitted ++ (procWalk s walk).2) ∧
        (procWalk s walk).1.batch = []
  | [], s, emitted, h, _, _ => ⟨flush_inv h, flush_batch s⟩
  | (f, b) :: rest, s, emitted, h, hnd, hdisj => by
      simp only [List.map_cons, List.nodup_cons] at hnd
      have hf : f ∉ s.batch := hdisj f (by simp)
      have h1 := procFile_inv f b (Or.inl hf) h
      have hdisj2 : ∀ g ∈ rest.map Prod.fst, g ∉ (procFile s f b).1.batch := by
        intro g hg
        have hgf : g ≠ f := by
          intro he; rw [he] at hg; exact hnd.1 hg
        have hgb : g ∉ s.batch := hdisj g (by simp [hg])
        rcases procFile_batch s f b with hb | hb | hb <;> rw [hb]
        · simp
        · exact hgb
        · simp only [List.mem_append, List.mem_singleton]
          rintro (hx | hx)
          · exact hgb hx
          · exact hgf hx
      have hrec := procWalk_inv rest (procFile s f b).1
        (emitted ++ (procFile s f b).2) h1 hnd.2 hdisj2
      rw [procWalk]
      refine ⟨?_, hrec.2⟩
      have := hrec.1
      rwa [List.append_assoc] at this

theorem crawlAux_inv :
    ∀ (walks : List (List (String × Bool))) (s : CrawlState)
      (out : List (List String)), CInv s out → s.batch = [] →
      (∀ w ∈ walks, (w.map Prod.fst).Nodup) →
      CInv (crawlAux walks s out).1 (crawlAux walks s out).2 ∧
        (crawlAux walks s out).1.batch = []
  | [], s, out, h, hb, _ => ⟨h, hb⟩
  | w :: rest, s, out, h, hb, hnd => by
      have hw := procWalk_inv w s out h (hnd w (by simp))
        (by intro g _; rw [hb]; simp)
      have := crawlAux_inv rest (procWalk s w).1 (out ++ (procWalk s w).2)
        hw.1 hw.2 (fun w2 hw2 => hnd w2 (by simp [hw2]))
      rw [crawlAux]
      exact this

theorem mem_flush (s : CrawlState) (p : String) :
    (p ∈ (flush s).1.knownFiles ∨ p ∈ (flush s).1.batch)
      ↔ (p ∈ s.knownFiles ∨ p ∈ s.batch) := by
  rw [flush]
  split
  · next hb =>
      have : s.batch = [] := by simpa using hb
      simp [this]
  · simp [List.mem_append]

theorem mem_procFile (s : CrawlState) (f : String) (b : Bool) (p : String) :
    (p ∈ (procFile s f b).1.knownFiles ∨ p ∈ (procFile s f b).1.batch)
      ↔ (p ∈ s.knownFiles ∨ p ∈ s.batch ∨ p = f) := by
  rw [procFile]
  by_cases hk : f ∈ s.knownFiles
  · rw [if_pos hk]
    have hpf : p = f → p ∈ s.knownFiles := fun hx => hx ▸ hk
    tauto
  · rw [if_neg hk]
    cases b with
    | true =>
        rw [if_pos rfl, mem_flush]
        simp only [List.mem_append, List.mem_singleton]
    | false =>
        rw [if_neg (by decide)]
        simp only [List.mem_append, List.mem_singleton]

theorem mem_procWalk :
    ∀ (walk : List (String × Bool)) (s : CrawlState) (p : String),
      (p ∈ (procWalk s walk).1.knownFiles ∨ p ∈ (procWalk s walk).1.batch)
        ↔ (p ∈ s.knownFiles ∨ p ∈ s.batch ∨ p ∈ walk.map Prod.fst)
  | [], s, p => by
      rw [procWalk, mem_flush]
      simp
  | (f, b) :: rest, s, p => by
      rw [procWalk]
      have h2 := mem_procWalk rest (procFile s f b).1 p
      have h3 := mem_procFile s f b p
      dsimp only
      rw [h2]
      simp only [List.map_cons, List.mem_cons] at h3 ⊢
      tauto

theorem mem_crawlAux :
    ∀ (walks : List (List (String × Bool))) (s : CrawlState)
      (out : List (List String)) (p : String),
      (p ∈ (crawlAux walks s out).1.knownFiles ∨
        p ∈ (crawlAux walks s out).1.batch)
        ↔ (p ∈ s.knownFiles ∨ p ∈ s.batch ∨
            p ∈ (walks.map fun w => w.map Prod.fst).join)
  | [], s, out, p => by
      rw [crawlAux]
      simp
  | w :: rest, s, out, p => by
      rw [crawlAux]
      have h2 := mem_crawlAux rest (procWalk s w).1 (out ++ (procWalk s w).2) p
      have h3 := mem_procWalk w s p
      rw [h2]
      simp only [List.map_cons, List.join_cons, List.mem_append] at h3 ⊢
      tauto

/-- C5: over any sequence of crawler poll cycles (arbitrary walk snapshots,
runs added between cycles, arbitrary intermediate batch-flush timing), a
stats.csv path that appears in some walk is reported to the consumer
exactly once across all emitted batches, and a path never walked is never
reported — provided each single directory walk enumerates each path at most
once (a filesystem walk property). -/
theorem crawl_reports_exactly_once (walks : List (List (String × Bool)))
    (hnd : ∀ w ∈ walks, (w.map Prod.fst).Nodup) (p : String) :
    countEmitted (crawl walks).2 p
      = if p ∈ (walks.map fun w => w.map Prod.fst).join then 1 else 0 := by
  have hinv := crawlAux_inv walks ⟨[], []⟩ [] (by intro q; simp [countEmitted])
    rfl hnd
  have hmem := mem_crawlAux walks ⟨[], []⟩ [] p
  rw [crawl]
  have hc := hinv.1 p
  rw [hinv.2] at hc hmem
  simp only [List.not_mem_nil, List.count_nil, or_false, false_or,
    Nat.add_zero] at hc hmem
  rw [hc]
  by_cases hm : p ∈ (walks.map fun w => w.map Prod.fst).join
  · rw [if_pos hm, if_pos (hmem.mpr hm)]
  · rw [if_neg hm, if_neg (fun hx => hm (hmem.mp hx))]

/-- Witness for `crawl_reports_exactly_once`: two cycles, a run added in
the second cycle, an intermediate flush after the first file. -/
theorem crawl_reports_exactly_once_witness :
    countEmitted (crawl [[("r1/stats.csv", true)],
      [("r1/stats.csv", false), ("r2/stats.csv", false)]]).2 "r1/stats.csv"
      = 1 :=
  (crawl_reports_exactly_once [[("r1/stats.csv", true)],
      [("r1/stats.csv", false), ("r2/stats.csv", false)]]
    (by decide) "r1/stats.csv").trans (by decide)

end Crawler
